import Mathlib

/-!
Shallow embedding of the fmty combinator library.

A Rust renderable interacts with the outside world only through the
`core::fmt::Write` sink it is handed: a render call is a sequence of
`write_str`/`write_char` calls, each of which either succeeds or reports
the single opaque `fmt::Error`.  We model:

* a text fragment (`&str`) as a list of decoded characters;
* a sink with state `σ` as a function `σ → fragment → Option σ`
  (`none` models `fmt::Error`);
* the `Display::fmt` method of each combinator as a function of the struct
  fields, the write function of the sink and the sink state (a `&self` receiver cannot
  mutate the struct, so plain combinators take no instance state);
* the `Once` interior-mutability slot as explicit `Option` state threaded
  through successive render calls.

Byte-level facts (UTF-8 offsets produced by `str::char_indices`, the byte
slice `&s[..i]` which panics off a character boundary) are modelled with
`Char.utf8Size`, so that character-exact truncation is a provable property
rather than an artifact of the model.
-/

namespace Fmty

/-- A text fragment: the decoded characters of a Rust `&str`. -/
abbrev Str := List Char

/-- The `write_str` capability of a sink with state `σ`.
`none` models `fmt::Error`, the one error kind at this layer. -/
def WriteFn (σ : Type) : Type := σ → Str → Option σ

/-- The accumulating sink used to observe rendered output: state is the
text written so far, and every write succeeds. -/
def appendW : WriteFn Str := fun s frag => some (s ++ frag)

/-- A sink that fails once its budget of successful writes is spent:
state is the number of writes it will still accept. -/
def failW : WriteFn Nat := fun s _ => match s with
  | 0 => none
  | Nat.succ k => some k

/-- `Concat::fmt` (src/concat.rs lines 163-174): write each item of a clone
of the stored iterator, stopping at the first write error. -/
def Concat.fmt {σ : Type} (iter : List Str) (w : WriteFn σ) (s : σ) : Option σ :=
  match iter with
  | [] => some s
  | item :: rest => (w s item).bind (fun s' => Concat.fmt rest w s')

/-- `ConcatMap::fmt` (src/concat.rs lines 190-202): write the mapped value
of each item of a clone of the stored iterator. -/
def ConcatMap.fmt {σ α : Type} (iter : List α) (map : α → Str) (w : WriteFn σ) (s : σ) :
    Option σ :=
  match iter with
  | [] => some s
  | item :: rest => (w s (map item)).bind (fun s' => ConcatMap.fmt rest map w s')

/-- The tail loop of `Join::fmt` (src/join.rs lines 276-278): for every
remaining item, `write!(f, "{}{}", self.sep, item)` writes the separator
and then the item. -/
def Join.fmtRest {σ : Type} (sep : Str) (w : WriteFn σ) (iter : List Str) (s : σ) :
    Option σ :=
  match iter with
  | [] => some s
  | item :: rest =>
    (w s sep).bind (fun s1 => (w s1 item).bind (fun s2 => Join.fmtRest sep w rest s2))

/-- `Join::fmt` (src/join.rs lines 263-282): write the first item of a clone
of the iterator if any, then separator-item pairs for the rest. -/
def Join.fmt {σ : Type} (iter : List Str) (sep : Str) (w : WriteFn σ) (s : σ) : Option σ :=
  match iter with
  | [] => some s
  | item :: rest => (w s item).bind (fun s' => Join.fmtRest sep w rest s')

/-- The tail loop of `JoinMap::fmt` (src/join.rs lines 318-320). -/
def JoinMap.fmtRest {σ α : Type} (sep : Str) (map : α → Str) (w : WriteFn σ)
    (iter : List α) (s : σ) : Option σ :=
  match iter with
  | [] => some s
  | item :: rest =>
    (w s sep).bind (fun s1 => (w s1 (map item)).bind (fun s2 =>
      JoinMap.fmtRest sep map w rest s2))

/-- `JoinMap::fmt` (src/join.rs lines 304-324). -/
def JoinMap.fmt {σ α : Type} (iter : List α) (sep : Str) (map : α → Str)
    (w : WriteFn σ) (s : σ) : Option σ :=
  match iter with
  | [] => some s
  | item :: rest => (w s (map item)).bind (fun s' => JoinMap.fmtRest sep map w rest s')

/-- The separator of the `csv` family: `", "` (src/join.rs line 137). -/
def csvSep : Str := [',', ' ']

/-- `CondOr::fmt` (src/cond.rs lines 134-141): write the `Ok` value
(`Sum.inl`) or the `Err` fallback (`Sum.inr`). -/
def CondOr.fmt {σ : Type} (value : Sum Str Str) (w : WriteFn σ) (s : σ) : Option σ :=
  match value with
  | Sum.inl v => w s v
  | Sum.inr v => w s v

/-- `Repeat::fmt` (src/repeat.rs lines 65-72): write the value `n` times. -/
def Repeat.fmt {σ : Type} (value : Str) (n : Nat) (w : WriteFn σ) (s : σ) : Option σ :=
  match n with
  | 0 => some s
  | Nat.succ k => (w s value).bind (fun s' => Repeat.fmt value k w s')

/-- `Once::new` (src/once.rs lines 37-39): the slot starts with the payload
present. -/
def Once.new {α : Type} (value : α) : Option α := some value

/-- `Once::take` (src/once.rs lines 41-44): extract whatever the slot holds
and leave the slot empty.  Returns (extracted payload, new slot state). -/
def Once.take {α : Type} (slot : Option α) : Option α × Option α := (slot, none)

/-- The `Clone` impl for `Once` (src/once.rs lines 25-31), available exactly
when the payload type is `Clone`: read the slot, clone its contents into a
fresh cell, leaving the original untouched.  Payload clones are modelled as
the payload value itself. -/
def Once.clone {α : Type} (slot : Option α) : Option α := slot

/-- `ConcatOnce::fmt` (src/concat.rs lines 219-232): take the iterator out
of the slot; if it was present, write every item; otherwise write nothing.
Returns the render result together with the slot state after the call. -/
def ConcatOnce.fmt {σ : Type} (slot : Option (List Str)) (w : WriteFn σ) (s : σ) :
    Option σ × Option (List Str) :=
  match Once.take slot with
  | (some iter, slot') => (Concat.fmt iter w s, slot')
  | (none, slot') => (some s, slot')

/-- `ConcatMapOnce::fmt` (src/concat.rs lines 250-264). -/
def ConcatMapOnce.fmt {σ α : Type} (slot : Option (List α)) (map : α → Str)
    (w : WriteFn σ) (s : σ) : Option σ × Option (List α) :=
  match Once.take slot with
  | (some iter, slot') => (ConcatMap.fmt iter map w s, slot')
  | (none, slot') => (some s, slot')

/-- `JoinOnce::fmt` (src/join.rs lines 284-302). -/
def JoinOnce.fmt {σ : Type} (slot : Option (List Str)) (sep : Str)
    (w : WriteFn σ) (s : σ) : Option σ × Option (List Str) :=
  match Once.take slot with
  | (some iter, slot') => (Join.fmt iter sep w s, slot')
  | (none, slot') => (some s, slot')

/-- `JoinMapOnce::fmt` (src/join.rs lines 326-345). -/
def JoinMapOnce.fmt {σ α : Type} (slot : Option (List α)) (sep : Str) (map : α → Str)
    (w : WriteFn σ) (s : σ) : Option σ × Option (List α) :=
  match Once.take slot with
  | (some iter, slot') => (JoinMap.fmt iter sep map w s, slot')
  | (none, slot') => (some s, slot')

/-- `CsvOnce::fmt`: `csv_once(iter)` is `join_once(iter, ", ")`
(src/join.rs lines 157-162). -/
def CsvOnce.fmt {σ : Type} (slot : Option (List Str)) (w : WriteFn σ) (s : σ) :
    Option σ × Option (List Str) :=
  JoinOnce.fmt slot csvSep w s

/-- Render the same instance `n` times, each time against a fresh sink in
state `fresh`; `f` maps the instance state to (render result, new instance
state).  Returns the list of render results. -/
def renderSeq {τ σ : Type} (f : τ → Option σ × τ) (st : τ) : Nat → List (Option σ)
  | 0 => []
  | Nat.succ n =>
    match f st with
    | (o, st') => o :: renderSeq f st' n

/-- The extraction results of `n` successive `Once::take` calls on a slot. -/
def takeSeq {α : Type} (slot : Option α) : Nat → List (Option α)
  | 0 => []
  | Nat.succ n =>
    match Once.take slot with
    | (v, slot') => v :: takeSeq slot' n

/-- Number of successful extractions in a list of `take` results. -/
def countSome {α : Type} (l : List (Option α)) : Nat := (l.filterMap id).length

/-- Byte length of the UTF-8 encoding of a fragment. -/
def utf8Len (s : Str) : Nat := (s.map Char.utf8Size).sum

/-- Helper for `charIndices`: characters paired with byte offsets starting
at `b`. -/
def charIndicesFrom (b : Nat) : Str → List (Nat × Char)
  | [] => []
  | c :: cs => (b, c) :: charIndicesFrom (b + c.utf8Size) cs

/-- `str::char_indices`: every character of the fragment together with the
byte offset at which its UTF-8 encoding starts. -/
def charIndices (s : Str) : List (Nat × Char) := charIndicesFrom 0 s

/-- The byte slice `&s[..n]`: the prefix of the fragment covering exactly
`n` UTF-8 bytes.  `none` models the panic raised when `n` is out of range
or falls inside the encoding of a character. -/
def takeBytes : Str → Nat → Option Str
  | _, 0 => some []
  | [], Nat.succ _ => none
  | c :: cs, Nat.succ n =>
    if c.utf8Size ≤ n + 1 then (takeBytes cs (n + 1 - c.utf8Size)).map (fun t => c :: t)
    else none

/-- `Writer::write_str` (src/truncate.rs lines 41-68).  The writer state is
(underlying sink state, `rem_len`).  When the budget is exhausted the
fragment is silently discarded; otherwise the index of the character one
past the budget is looked up via `char_indices().enumerate().take(rem_len+1)
.last()` and the fragment is forwarded whole or cut at that byte offset.
(The `checked_add` overflow branch of the source is unreachable for fragments
that fit in memory, and `Nat` arithmetic cannot overflow.) -/
def truncWriteStr {σ : Type} (w : WriteFn σ) (st : σ × Nat) (s : Str) : Option (σ × Nat) :=
  if st.2 = 0 then some st
  else
    match ((charIndices s).enum.take (st.2 + 1)).getLast? with
    | some (charOffset, byteOffset, _) =>
      if charOffset = st.2 then
        match takeBytes s byteOffset with
        | some s' => (w st.1 s').map (fun f' => (f', 0))
        | none => none
      else (w st.1 s).map (fun f' => (f', st.2 - (charOffset + 1)))
    | none => some st

/-- `Writer::write_char` (src/truncate.rs lines 70-78): forward the
character and decrement the budget, unless the budget is spent. -/
def truncWriteChar {σ : Type} (w : WriteFn σ) (st : σ × Nat) (c : Char) : Option (σ × Nat) :=
  match st.2 with
  | Nat.succ remLen => (w st.1 [c]).map (fun f' => (f', remLen))
  | 0 => some st

/-- One write call that the wrapped value makes against the interposed
writer while it renders. -/
inductive WOp where
  | str (s : Str)
  | char (c : Char)

/-- The text a write operation carries. -/
def WOp.text : WOp → Str
  | .str s => s
  | .char c => [c]

/-- The full text of a sequence of write operations: the untruncated
rendering of the wrapped value. -/
def opsText (ops : List WOp) : Str := (ops.map WOp.text).flatten

/-- Dispatch one write operation to the corresponding writer method. -/
def truncRunOp {σ : Type} (w : WriteFn σ) (st : σ × Nat) : WOp → Option (σ × Nat)
  | .str s => truncWriteStr w st s
  | .char c => truncWriteChar w st c

/-- Run the write calls of the wrapped value against the interposed writer in
order, stopping at the first error. -/
def truncRunOps {σ : Type} (w : WriteFn σ) (st : σ × Nat) : List WOp → Option (σ × Nat)
  | [] => some st
  | op :: rest => (truncRunOp w st op).bind (fun st' => truncRunOps w st' rest)

/-- `TruncateChars::fmt` (src/truncate.rs lines 33-92):
`write!(Writer { f, rem_len: self.len }, "{}", self.value)` performs one
`Writer::write_fmt` call (lines 80-87), which returns `Ok` immediately when
`rem_len == 0` and otherwise drives the value against the writer.  The
rendering of the wrapped value is modelled as the write calls `ops` it makes
followed by the result `res` its `Display::fmt` returns (`true` = `Ok`). -/
def TruncateChars.fmt {σ : Type} (ops : List WOp) (res : Bool) (len : Nat)
    (w : WriteFn σ) (s : σ) : Option σ :=
  if len = 0 then some s
  else
    match truncRunOps w (s, len) ops with
    | none => none
    | some st' => if res then some st'.1 else none

/-- A leaf renderable that performs the given write calls directly against
the sink it is handed. -/
def Value.fmt {σ : Type} (ops : List WOp) (w : WriteFn σ) (s : σ) : Option σ :=
  match ops with
  | [] => some s
  | op :: rest => (w s op.text).bind (fun s' => Value.fmt rest w s')

/-- `ConcatTuple<(T0, T1)>::fmt` (src/concat.rs lines 299-312 via
`impl_tuple!`): render the first value, then the second, against the same
sink. -/
def ConcatTuple2.fmt {σ : Type} (a b : σ → Option σ) (s : σ) : Option σ := (a s).bind b

/-- State of the `concat_once_cycle` scenario (src/concat.rs tests): the
`Once` slot of the wrapper together with the text written to the outer sink. -/
structure CycSt where
  slot : Option Unit
  out : Str
  deriving DecidableEq

/-- The `concat_once_cycle` test (src/concat.rs lines 427-448): a
`ConcatOnce` wrapper whose single iterator item is produced by rendering
the wrapper itself through a weak back-reference (into a fresh buffer, as
`format!` does) prefixed with `"X"`.  `fuel` bounds re-entrancy depth; the
re-entrant render call made by the payload receives the slot state current at that
moment. -/
def cycFmt : Nat → CycSt → Option CycSt
  | 0, _ => none
  | Nat.succ n, st =>
    match Once.take st.slot with
    | (some _, slot') =>
      match cycFmt n { slot := slot', out := [] } with
      | none => none
      | some inner => some { slot := inner.slot, out := st.out ++ 'X' :: inner.out }
    | (none, slot') => some { slot := slot', out := st.out }

end Fmty

namespace Fmty

/-! Helper lemmas shared by the claim theorems. -/

/-- Unfold one step of a repeated-render sequence. -/
theorem renderSeq_head {τ σ : Type} (f : τ → Option σ × τ) (t : τ) (o : Option σ) (t' : τ)
    (h : f t = (o, t')) (n : Nat) : renderSeq f t (n + 1) = o :: renderSeq f t' n := by
  simp [renderSeq, h]

/-- A render function that fixes its instance state yields a constant
render sequence. -/
theorem renderSeq_const {τ σ : Type} (f : τ → Option σ × τ) (t : τ) (o : Option σ)
    (h : f t = (o, t)) : ∀ n, renderSeq f t n = List.replicate n o := by
  intro n
  induction n with
  | zero => rfl
  | succ n ih => simp [renderSeq, h, ih, List.replicate_succ]

/-- Output of the tail loop of `Join::fmt` on the accumulating sink. -/
theorem joinRest_appendW (sep : Str) (iter : List Str) (acc : Str) :
    Join.fmtRest sep appendW iter acc =
      some (acc ++ (iter.map (fun x => sep ++ x)).flatten) := by
  induction iter generalizing acc with
  | nil => simp [Join.fmtRest]
  | cons x rest ih => simp [Join.fmtRest, appendW, ih]

/-- `List.intercalate` in the form produced by the join loop. -/
theorem intercalate_eq_flatten (sep x : Str) (rest : List Str) :
    List.intercalate sep (x :: rest) = x ++ (rest.map (fun y => sep ++ y)).flatten := by
  induction rest generalizing x with
  | nil => simp [List.intercalate, List.intersperse]
  | cons y rest ih =>
    simp only [List.intercalate, List.intersperse] at ih ⊢
    simp at ih ⊢
    simp [ih]

/-- Output of `Join::fmt` on the accumulating sink. -/
theorem join_fmt_appendW (iter : List Str) (sep : Str) (acc : Str) :
    Join.fmt iter sep appendW acc = some (acc ++ List.intercalate sep iter) := by
  cases iter with
  | nil => simp [Join.fmt, List.intercalate]
  | cons x rest => simp [Join.fmt, appendW, joinRest_appendW, intercalate_eq_flatten]

/-- `Concat::fmt` renders an appended item list as the sequential
composition of the two renders. -/
theorem concat_fmt_append {σ : Type} (w : WriteFn σ) (xs ys : List Str) (s : σ) :
    Concat.fmt (xs ++ ys) w s = (Concat.fmt xs w s).bind (fun s' => Concat.fmt ys w s') := by
  induction xs generalizing s with
  | nil => simp [Concat.fmt]
  | cons x xs ih =>
    simp only [List.cons_append, Concat.fmt]
    cases w s x <;> simp [ih]

/-- The tail loop of `Join::fmt` renders an appended item list as the
sequential composition of the two loops. -/
theorem joinRest_append {σ : Type} (w : WriteFn σ) (sep : Str) (as bs : List Str) (s : σ) :
    Join.fmtRest sep w (as ++ bs) s =
      (Join.fmtRest sep w as s).bind (fun s' => Join.fmtRest sep w bs s') := by
  induction as generalizing s with
  | nil => simp [Join.fmtRest]
  | cons a as ih =>
    simp only [List.cons_append, Join.fmtRest]
    cases w s sep with
    | none => simp
    | some s1 => cases w s1 a <;> simp [ih, Option.bind_assoc]

/-- Repeated `take` on an empty slot extracts nothing, forever. -/
theorem takeSeq_none {α : Type} : ∀ n, takeSeq (none : Option α) n = List.replicate n none := by
  intro n
  induction n with
  | zero => rfl
  | succ n ih => simp [takeSeq, Once.take, ih, List.replicate_succ]

/-- No extraction is counted in an all-empty take sequence. -/
theorem countSome_replicate_none {α : Type} (n : Nat) :
    countSome (List.replicate n (none : Option α)) = 0 := by
  induction n with
  | zero => rfl
  | succ n ih => simp [countSome, List.replicate_succ, List.filterMap] at ih ⊢

/-- `charIndicesFrom` preserves length. -/
theorem charIndicesFrom_length (s : Str) (b : Nat) :
    (charIndicesFrom b s).length = s.length := by
  induction s generalizing b with
  | nil => rfl
  | cons c cs ih => simp [charIndicesFrom, ih]

/-- `char_indices` yields one entry per character. -/
theorem charIndices_length (s : Str) : (charIndices s).length = s.length :=
  charIndicesFrom_length s 0

/-- Entry `i` of `charIndicesFrom b s` is character `i` of `s` at byte
offset `b` plus the UTF-8 length of the preceding characters. -/
theorem charIndicesFrom_getElem? (s : Str) (b i : Nat) :
    (charIndicesFrom b s)[i]? = (s[i]?).map (fun c => (b + utf8Len (s.take i), c)) := by
  induction s generalizing b i with
  | nil => simp [charIndicesFrom]
  | cons c cs ih =>
    cases i with
    | zero => simp [charIndicesFrom, utf8Len]
    | succ i =>
      simp [charIndicesFrom, ih, utf8Len, Nat.add_assoc]

/-- Entry `i` of the enumerated `char_indices` of `s`. -/
theorem charIndices_enum_getElem? (s : Str) (i : Nat) :
    (charIndices s).enum[i]? = (s[i]?).map (fun c => (i, utf8Len (s.take i), c)) := by
  rw [List.getElem?_enum, charIndices, charIndicesFrom_getElem?]
  cases s[i]? <;> simp

/-- The `last()` of the first `k` entries of a list, as an indexed lookup. -/
theorem getLast?_take {β : Type} (l : List β) (k : Nat) :
    (l.take k).getLast? =
      if min k l.length = 0 then none else l[min k l.length - 1]? := by
  rw [List.getLast?_eq_getElem?, List.length_take, List.getElem?_take]
  by_cases h : min k l.length = 0
  · rw [if_pos h]
    rcases Nat.min_eq_zero_iff.mp h with hk | hl
    · subst hk
      simp
    · rw [List.length_eq_zero.mp hl]
      simp
  · rw [if_neg h, if_pos (by omega)]

/-- Slicing a cons cell whose head encoding fits in the byte count. -/
theorem takeBytes_utf8Size_add (c : Char) (cs : Str) (m : Nat) :
    takeBytes (c :: cs) (c.utf8Size + m) = (takeBytes cs m).map (fun t => c :: t) := by
  have hpos := Char.utf8Size_pos c
  obtain ⟨p, hp⟩ : ∃ p, c.utf8Size + m = p + 1 := ⟨c.utf8Size + m - 1, by omega⟩
  rw [hp]
  simp only [takeBytes]
  rw [if_pos (by omega), show p + 1 - c.utf8Size = m by omega]

/-- The byte slice at the byte offset of character `k` succeeds and cuts
exactly at that character: the byte offsets of `char_indices` always land
on character boundaries. -/
theorem takeBytes_utf8Len_take (s : Str) (k : Nat) :
    takeBytes s (utf8Len (s.take k)) = some (s.take k) := by
  induction s generalizing k with
  | nil => simp [takeBytes, utf8Len]
  | cons c cs ih =>
    cases k with
    | zero => simp [takeBytes, utf8Len]
    | succ k =>
      rw [List.take_succ_cons, show utf8Len (c :: cs.take k) = c.utf8Size + utf8Len (cs.take k)
        from by simp [utf8Len], takeBytes_utf8Size_add, ih]
      rfl

/-- Observable behaviour of `Writer::write_str` on the accumulating sink:
forward the first `rem` characters of the fragment and spend the budget by
the number of characters seen. -/
theorem truncWriteStr_appendW (acc : Str) (rem : Nat) (s : Str) :
    truncWriteStr appendW (acc, rem) s = some (acc ++ s.take rem, rem - s.length) := by
  rcases Nat.eq_zero_or_pos rem with hr | hr
  · subst hr
    simp [truncWriteStr]
  · have hne : rem ≠ 0 := by omega
    rcases eq_or_ne s [] with hs | hs
    · subst hs
      simp [truncWriteStr, hne, charIndices, charIndicesFrom]
    · have hlen : 0 < s.length := List.length_pos.mpr hs
      have henul : (charIndices s).enum.length = s.length := by
        rw [List.enum_length, charIndices_length]
      simp only [truncWriteStr, hne, if_false]
      rw [getLast?_take, henul]
      have hmin : ¬ min (rem + 1) s.length = 0 := by omega
      rw [if_neg hmin, charIndices_enum_getElem?]
      have hi0lt : min (rem + 1) s.length - 1 < s.length := by omega
      rw [List.getElem?_eq_getElem hi0lt]
      simp only [Option.map_some']
      by_cases hcase : s.length ≤ rem
      · have hne2 : ¬ min (rem + 1) s.length - 1 = rem := by omega
        rw [if_neg hne2]
        simp only [appendW, Option.map_some']
        rw [List.take_of_length_le hcase]
        have : rem - (min (rem + 1) s.length - 1 + 1) = rem - s.length := by omega
        rw [this]
      · have heq : min (rem + 1) s.length - 1 = rem := by omega
        rw [if_pos heq, heq, takeBytes_utf8Len_take]
        simp only [appendW, Option.map_some']
        have : rem - s.length = 0 := by omega
        rw [this]

/-- Observable behaviour of `Writer::write_char` on the accumulating sink. -/
theorem truncWriteChar_appendW (acc : Str) (rem : Nat) (c : Char) :
    truncWriteChar appendW (acc, rem) c = some (acc ++ [c].take rem, rem - 1) := by
  cases rem with
  | zero => simp [truncWriteChar]
  | succ r => simp [truncWriteChar, appendW]

/-- Both writer entry points truncate their text by the budget. -/
theorem truncRunOp_appendW (acc : Str) (rem : Nat) (op : WOp) :
    truncRunOp appendW (acc, rem) op =
      some (acc ++ op.text.take rem, rem - op.text.length) := by
  cases op with
  | str s => exact truncWriteStr_appendW acc rem s
  | char c => exact truncWriteChar_appendW acc rem c

/-- The budget is carried correctly across any sequence of write calls:
the forwarded output is the `rem`-character prefix of the full text. -/
theorem truncRunOps_appendW (ops : List WOp) (acc : Str) (rem : Nat) :
    truncRunOps appendW (acc, rem) ops =
      some (acc ++ (opsText ops).take rem, rem - (opsText ops).length) := by
  induction ops generalizing acc rem with
  | nil => simp [truncRunOps, opsText]
  | cons op rest ih =>
    simp only [truncRunOps, truncRunOp_appendW, Option.some_bind, ih]
    simp [opsText, List.take_append_eq_append_take, List.append_assoc, Nat.sub_sub]

/-- Closed form of `TruncateChars::fmt` on the accumulating sink. -/
theorem truncate_fmt_appendW (ops : List WOp) (res : Bool) (N : Nat) (acc : Str) :
    TruncateChars.fmt ops res N appendW acc =
      if N = 0 then some acc
      else if res then some (acc ++ (opsText ops).take N) else none := by
  by_cases h : N = 0
  · simp [TruncateChars.fmt, h]
  · simp [TruncateChars.fmt, h, truncRunOps_appendW]

/-- A leaf renderable writes its full text on the accumulating sink. -/
theorem value_fmt_appendW (ops : List WOp) (acc : Str) :
    Value.fmt ops appendW acc = some (acc ++ opsText ops) := by
  induction ops generalizing acc with
  | nil => simp [Value.fmt, opsText]
  | cons op rest ih => simp [Value.fmt, appendW, ih, opsText]

/-- Taking `min N (length T)` characters is taking `N` characters. -/
theorem take_min_length (T : Str) (N : Nat) : T.take (min N T.length) = T.take N := by
  rw [← List.take_take, List.take_length]

end Fmty

namespace Fmty

/-- C1: for every inner renderable whose untruncated rendering is the text
`T = opsText ops` (delivered as write calls of arbitrary chunk sizes) and
every budget `N`, rendering `truncate_chars(value, N)` writes exactly the
first `min N (length T)` decoded characters of `T` — the cut landing on a
character boundary, counting characters rather than bytes, with the budget
carried across fragments — and the render reports success.  Includes the
concrete scenarios: truncating "héllo" to 2 characters yields "hé", and
truncating the concatenation of "abc" and "123" to 4 characters yields
"abc1". -/
theorem truncate_chars_exact (ops : List WOp) (N : Nat) :
    (TruncateChars.fmt ops true N appendW [] =
      some ((opsText ops).take (min N (opsText ops).length))) ∧
    (TruncateChars.fmt [WOp.str ['h', 'é', 'l', 'l', 'o']] true 2 appendW [] =
      some ['h', 'é']) ∧
    (TruncateChars.fmt [WOp.str ['a', 'b', 'c'], WOp.str ['1', '2', '3']] true 4 appendW [] =
      some ['a', 'b', 'c', '1']) := by
  refine ⟨?_, by rfl, by rfl⟩
  rw [take_min_length, truncate_fmt_appendW]
  by_cases h : N = 0
  · simp [h]
  · simp [h]

/-- C2: for every once-wrapper (concat_once, concat_map_once, join_once,
join_map_once, csv_once), the first render on a fresh slot produces exactly
what rendering the unwrapped payload directly would produce on the same
sink, and every subsequent render of the same instance leaves the sink
untouched (empty output) and succeeds, for any number of repeats. -/
theorem once_wrappers_single_use {σ α : Type} (w : WriteFn σ) (s fresh : σ) (n : Nat) :
    (∀ iter : List Str,
      ConcatOnce.fmt (Once.new iter) w s = (Concat.fmt iter w s, none) ∧
      renderSeq (fun slot => ConcatOnce.fmt slot w fresh) (Once.new iter) (n + 1) =
        Concat.fmt iter w fresh :: List.replicate n (some fresh)) ∧
    (∀ (iter : List α) (map : α → Str),
      ConcatMapOnce.fmt (Once.new iter) map w s = (ConcatMap.fmt iter map w s, none) ∧
      renderSeq (fun slot => ConcatMapOnce.fmt slot map w fresh) (Once.new iter) (n + 1) =
        ConcatMap.fmt iter map w fresh :: List.replicate n (some fresh)) ∧
    (∀ (iter : List Str) (sep : Str),
      JoinOnce.fmt (Once.new iter) sep w s = (Join.fmt iter sep w s, none) ∧
      renderSeq (fun slot => JoinOnce.fmt slot sep w fresh) (Once.new iter) (n + 1) =
        Join.fmt iter sep w fresh :: List.replicate n (some fresh)) ∧
    (∀ (iter : List α) (sep : Str) (map : α → Str),
      JoinMapOnce.fmt (Once.new iter) sep map w s = (JoinMap.fmt iter sep map w s, none) ∧
      renderSeq (fun slot => JoinMapOnce.fmt slot sep map w fresh) (Once.new iter) (n + 1) =
        JoinMap.fmt iter sep map w fresh :: List.replicate n (some fresh)) ∧
    (∀ iter : List Str,
      CsvOnce.fmt (Once.new iter) w s = (Join.fmt iter csvSep w s, none) ∧
      renderSeq (fun slot => CsvOnce.fmt slot w fresh) (Once.new iter) (n + 1) =
        Join.fmt iter csvSep w fresh :: List.replicate n (some fresh)) := by
  refine ⟨fun iter => ⟨rfl, ?_⟩, fun iter map => ⟨rfl, ?_⟩, fun iter sep => ⟨rfl, ?_⟩,
    fun iter sep map => ⟨rfl, ?_⟩, fun iter => ⟨rfl, ?_⟩⟩
  · exact (renderSeq_head (fun slot => ConcatOnce.fmt slot w fresh) (Once.new iter)
      (Concat.fmt iter w fresh) none rfl n).trans (congrArg _
        (renderSeq_const (fun slot => ConcatOnce.fmt slot w fresh) none (some fresh) rfl n))
  · exact (renderSeq_head (fun slot => ConcatMapOnce.fmt slot map w fresh) (Once.new iter)
      (ConcatMap.fmt iter map w fresh) none rfl n).trans (congrArg _
        (renderSeq_const (fun slot => ConcatMapOnce.fmt slot map w fresh) none (some fresh) rfl n))
  · exact (renderSeq_head (fun slot => JoinOnce.fmt slot sep w fresh) (Once.new iter)
      (Join.fmt iter sep w fresh) none rfl n).trans (congrArg _
        (renderSeq_const (fun slot => JoinOnce.fmt slot sep w fresh) none (some fresh) rfl n))
  · exact (renderSeq_head (fun slot => JoinMapOnce.fmt slot sep map w fresh) (Once.new iter)
      (JoinMap.fmt iter sep map w fresh) none rfl n).trans (congrArg _
        (renderSeq_const (fun slot => JoinMapOnce.fmt slot sep map w fresh) none (some fresh) rfl n))
  · exact (renderSeq_head (fun slot => CsvOnce.fmt slot w fresh) (Once.new iter)
      (Join.fmt iter csvSep w fresh) none rfl n).trans (congrArg _
        (renderSeq_const (fun slot => CsvOnce.fmt slot w fresh) none (some fresh) rfl n))

/-- C3: at most one successful extraction ever occurs on a `Once` slot and
the slot is permanently empty after any `take`; a re-entrant render call on
the same wrapper from within the same call stack (the concat_once_cycle
scenario) observes the slot already empty, renders nothing, succeeds, and
never double-extracts: the cyclic wrapper renders exactly "X" and a render
on an already-empty slot is an identity on the state. -/
theorem single_use_slot_invariant :
    (∀ (α : Type) (slot : Option α) (n : Nat), countSome (takeSeq slot n) ≤ 1) ∧
    (∀ (α : Type) (slot : Option α), (Once.take slot).2 = none) ∧
    (∀ α : Type, Once.take (α := α) none = (none, none)) ∧
    (∀ (n : Nat) (st : CycSt), st.slot = none → cycFmt (n + 1) st = some st) ∧
    (cycFmt 2 { slot := some (), out := [] } = some { slot := none, out := ['X'] }) := by
  refine ⟨?_, fun _ _ => rfl, fun _ => rfl, ?_, rfl⟩
  · intro α slot n
    cases slot with
    | none => simp [takeSeq_none, countSome_replicate_none]
    | some v =>
      cases n with
      | zero => simp [takeSeq, countSome]
      | succ n =>
        simp [takeSeq, Once.take, takeSeq_none, countSome, List.filterMap,
          countSome_replicate_none]
  · intro n st h
    cases st with
    | mk slot out => cases h; simp [cycFmt, Once.take]

/-- C3 witness: the re-entrant-call conjunct applied at a concrete
already-empty state. -/
theorem single_use_slot_invariant_witness :
    cycFmt 1 { slot := none, out := ['q'] } = some { slot := none, out := ['q'] } :=
  single_use_slot_invariant.2.2.2.1 0 { slot := none, out := ['q'] } rfl

/-- C4: once the remaining budget is 0, every write delivered to the
interposed writer is discarded and reports success — both entry points
leave the sink state untouched for every fragment, the zero-budget
write_fmt guard succeeds without error, and a renderable composed after
the truncated one still executes and the overall render succeeds. -/
theorem trunc_exhausted_is_success {σ : Type} (w : WriteFn σ) :
    (∀ (s : σ) (frag : Str), truncWriteStr w (s, 0) frag = some (s, 0)) ∧
    (∀ (s : σ) (c : Char), truncWriteChar w (s, 0) c = some (s, 0)) ∧
    (∀ (s : σ) (ops : List WOp) (res : Bool), TruncateChars.fmt ops res 0 w s = some s) ∧
    (∀ (ops other : List WOp) (N : Nat),
      ConcatTuple2.fmt (TruncateChars.fmt ops true N appendW) (Value.fmt other appendW) [] =
        some ((opsText ops).take N ++ opsText other)) := by
  refine ⟨fun s frag => by simp [truncWriteStr], fun s c => rfl,
    fun s ops res => by simp [TruncateChars.fmt], ?_⟩
  intro ops other N
  simp only [ConcatTuple2.fmt, truncate_fmt_appendW]
  by_cases h : N = 0
  · simp [h, value_fmt_appendW]
  · simp [h, value_fmt_appendW]

/-- C5 counterexample: the claim says no clone operation exists on a
once-wrapper for any payload type, but src/once.rs lines 25-31 provide
`Clone` for `Once` whenever the payload is `Clone`; cloning a concrete
unconsumed `concat_once` wrapper yields an equal, independently renderable
wrapper. -/
theorem once_wrapper_clone_exists :
    Once.clone (Once.new [['h', 'i']]) = Once.new [['h', 'i']] ∧
    (ConcatOnce.fmt (Once.clone (Once.new [['h', 'i']])) appendW []).1 =
      some ['h', 'i'] := ⟨rfl, rfl⟩

/-- C5 amended: a once-wrapper is duplicable exactly when its payload is
duplicable (and never `Copy`): the source `Clone` impl snapshots the slot
state, so the clone of an unconsumed wrapper renders like a fresh wrapper
and the clone of a consumed wrapper renders empty; plain wrappers are
duplicable exactly when their contents are. -/
theorem once_clone_mirrors_payload {σ : Type} (w : WriteFn σ) (s : σ) :
    (∀ (α : Type) (slot : Option α), Once.clone slot = slot) ∧
    (∀ iter : List Str,
      ConcatOnce.fmt (Once.clone (Once.new iter)) w s = (Concat.fmt iter w s, none)) ∧
    (ConcatOnce.fmt (Once.clone (none : Option (List Str))) w s = (some s, none)) :=
  ⟨fun _ _ => rfl, fun _ => rfl, rfl⟩

/-- C6: every combinator short-circuits on sink failure: rendering an
appended item list is the sequential bind of the two renders (so once the
sink fails the remaining sibling writes are never performed and cannot
influence the result), and a failed prefix render forces the whole render
to report that same failure whatever items follow, for both `Concat` and
`Join`. -/
theorem combinators_short_circuit {σ : Type} (w : WriteFn σ) :
    (∀ (xs ys : List Str) (s : σ),
      Concat.fmt (xs ++ ys) w s = (Concat.fmt xs w s).bind (fun s' => Concat.fmt ys w s')) ∧
    (∀ (xs : List Str) (x : Str) (s s' : σ), Concat.fmt xs w s = some s' → w s' x = none →
      ∀ ys : List Str, Concat.fmt (xs ++ x :: ys) w s = none) ∧
    (∀ (sep : Str) (as bs : List Str) (s : σ),
      Join.fmtRest sep w (as ++ bs) s =
        (Join.fmtRest sep w as s).bind (fun s' => Join.fmtRest sep w bs s')) ∧
    (∀ (sep x : Str) (xs ys : List Str) (s : σ), Join.fmt (x :: xs) sep w s = none →
      Join.fmt (x :: (xs ++ ys)) sep w s = none) := by
  refine ⟨concat_fmt_append w, ?_, joinRest_append w, ?_⟩
  · intro xs x s s' h hx ys
    rw [concat_fmt_append, h]
    simp [Concat.fmt, hx]
  · intro sep x xs ys s h
    simp only [Join.fmt] at h ⊢
    cases hw : w s x with
    | none => rfl
    | some s1 =>
      simp only [hw, Option.some_bind] at h ⊢
      rw [joinRest_append w sep xs ys s1, h]
      rfl

/-- C6 witness: on a sink that accepts exactly one write, concat and join
renders fail and appending further items cannot change that. -/
theorem combinators_short_circuit_witness :
    Concat.fmt [['a'], ['b'], ['c']] failW 1 = none ∧
    Join.fmt [['a'], ['b'], ['c']] [';'] failW 1 = none := by
  constructor
  · exact (combinators_short_circuit failW).2.1 [['a']] ['b'] 1 0 rfl rfl [['c']]
  · exact (combinators_short_circuit failW).2.2.2 [';'] ['a'] [['b']] [['c']] 1 rfl

/-- C7: every pure renderable — concat, join, cond, repeat and the
truncation filter, whose `fmt` takes `&self` and therefore depends only on
the struct fields — renders the identical output any number of times, each
time against a fresh sink. -/
theorem pure_renderables_idempotent {σ : Type} (w : WriteFn σ) (fresh : σ) (n : Nat) :
    (∀ iter : List Str,
      renderSeq (fun _ : Unit => (Concat.fmt iter w fresh, ())) () n =
        List.replicate n (Concat.fmt iter w fresh)) ∧
    (∀ (iter : List Str) (sep : Str),
      renderSeq (fun _ : Unit => (Join.fmt iter sep w fresh, ())) () n =
        List.replicate n (Join.fmt iter sep w fresh)) ∧
    (∀ value : Sum Str Str,
      renderSeq (fun _ : Unit => (CondOr.fmt value w fresh, ())) () n =
        List.replicate n (CondOr.fmt value w fresh)) ∧
    (∀ (value : Str) (k : Nat),
      renderSeq (fun _ : Unit => (Repeat.fmt value k w fresh, ())) () n =
        List.replicate n (Repeat.fmt value k w fresh)) ∧
    (∀ (ops : List WOp) (res : Bool) (len : Nat),
      renderSeq (fun _ : Unit => (TruncateChars.fmt ops res len w fresh, ())) () n =
        List.replicate n (TruncateChars.fmt ops res len w fresh)) :=
  ⟨fun _ => renderSeq_const _ () _ rfl n,
   fun _ _ => renderSeq_const _ () _ rfl n,
   fun _ => renderSeq_const _ () _ rfl n,
   fun _ _ => renderSeq_const _ () _ rfl n,
   fun _ _ _ => renderSeq_const _ () _ rfl n⟩

/-- C8: joining items with a separator renders the items interleaved with
the separator between consecutive items only — never leading or trailing —
and joining zero or one item never emits the separator; includes the
concrete three-item law a + s + b + s + c. -/
theorem join_law :
    (∀ (iter : List Str) (sep : Str),
      Join.fmt iter sep appendW [] = some (List.intercalate sep iter)) ∧
    (∀ sep : Str, Join.fmt [] sep appendW [] = some []) ∧
    (∀ sep a : Str, Join.fmt [a] sep appendW [] = some a) ∧
    (∀ sep : Str, Join.fmt [['a'], ['b'], ['c']] sep appendW [] =
      some (['a'] ++ sep ++ ['b'] ++ sep ++ ['c'])) := by
  refine ⟨fun iter sep => by simpa using join_fmt_appendW iter sep [], ?_, ?_, ?_⟩
  · intro sep; rfl
  · intro sep a; simp [Join.fmt, Join.fmtRest, appendW]
  · intro sep
    have h := join_fmt_appendW [['a'], ['b'], ['c']] sep []
    simp [intercalate_eq_flatten] at h
    simpa using h

/-- C9: cloning a once-wrapper snapshots the slot at clone time: the clone
of an unconsumed wrapper renders the full output once on its own and empty
thereafter, the clone of a consumed wrapper always renders empty, and the
clone operation does not change the slot it reads. -/
theorem once_clone_snapshot {σ : Type} (w : WriteFn σ) (fresh : σ) (n : Nat) :
    (∀ (α : Type) (slot : Option α), Once.clone slot = slot) ∧
    (∀ iter : List Str,
      renderSeq (fun slot => ConcatOnce.fmt slot w fresh)
        (Once.clone (Once.new iter)) (n + 1) =
        Concat.fmt iter w fresh :: List.replicate n (some fresh)) ∧
    (renderSeq (fun slot => ConcatOnce.fmt slot w fresh)
      (Once.clone (none : Option (List Str))) n = List.replicate n (some fresh)) := by
  refine ⟨fun _ _ => rfl, ?_, ?_⟩
  · intro iter
    exact (renderSeq_head (fun slot => ConcatOnce.fmt slot w fresh) (Once.new iter)
      (Concat.fmt iter w fresh) none rfl n).trans (congrArg _
        (renderSeq_const (fun slot => ConcatOnce.fmt slot w fresh) none (some fresh) rfl n))
  · exact renderSeq_const (fun slot => ConcatOnce.fmt slot w fresh) none (some fresh) rfl n

/-- C10 counterexample: with budget 0 the inner renderable is not driven at
all and an error it would report is not propagated — the write_fmt guard
returns success immediately, so truncating an erroring value to 0
characters succeeds, contrary to the claim. -/
theorem trunc_zero_budget_skips_inner :
    TruncateChars.fmt [WOp.str ['a']] false 0 appendW [] = some [] := rfl

/-- C10 amended: for every budget N ≥ 1 the inner render is driven exactly
once to completion — every write call on the interposed writer succeeds,
including post-exhaustion writes, which are accepted and discarded — and an
error the inner render itself returns is still propagated; for N = 0 the
write_fmt guard skips driving the inner entirely and the render succeeds
immediately. -/
theorem trunc_drives_inner_fully :
    (∀ (ops : List WOp) (res : Bool) (N : Nat), 1 ≤ N →
      TruncateChars.fmt ops res N appendW [] =
        if res then some ((opsText ops).take N) else none) ∧
    (∀ (ops : List WOp) (acc : Str) (N : Nat),
      (truncRunOps appendW (acc, N) ops).isSome = true) ∧
    (∀ (σ : Type) (w : WriteFn σ) (s : σ) (ops : List WOp) (res : Bool),
      TruncateChars.fmt ops res 0 w s = some s) := by
  refine ⟨?_, ?_, fun σ w s ops res => by simp [TruncateChars.fmt]⟩
  · intro ops res N hN
    rw [truncate_fmt_appendW, if_neg (by omega)]
    simp
  · intro ops acc N
    rw [truncRunOps_appendW]
    rfl

/-- C10 witness: with budget 1 an inner render that reports an error after
writing two characters makes the truncated render fail. -/
theorem trunc_drives_inner_fully_witness :
    TruncateChars.fmt [WOp.str ['a', 'b']] false 1 appendW [] = none := by
  have h := trunc_drives_inner_fully.1 [WOp.str ['a', 'b']] false 1 (by decide)
  simpa using h

end Fmty
